import Mathlib

/-!
Verification of the logic-circuit simulator core: tokenizer and
recursive-descent parser (logic_parser.py), circuit builder, gate evaluator
and truth-table generator (circuit_generator.py).  Python dictionaries used
as assignments are modelled as association lists with first-match lookup;
the Python set of input variables is modelled as a duplicate-free list.
Raised exceptions are modelled by the Except monad; the parser's mutual
recursion is driven by a fuel parameter large enough for every input.
-/

/-- Lexical tokens, as produced by LogicParser.next_token. -/
inductive Token where
  | AND
  | OR
  | NOT
  | LPAREN
  | RPAREN
  | IDENTIFIER (value : String)
deriving DecidableEq, Repr

/-- The failure modes of the core: the messages raised in logic_parser.py.
invalidChar is the lexical failure ("Invalid character") and records the
scan position at the moment of the raise; missingClosingParen and
invalidFactor are the parser's two raises; outOfFuel is an artifact of the
fuel-driven embedding and is never produced on inputs the fuel covers. -/
inductive Err where
  | invalidChar (pos : Nat)
  | missingClosingParen
  | invalidFactor
  | outOfFuel
deriving DecidableEq, Repr

/-- First character of the identifier rule: `[a-zA-Z_]` (ASCII). -/
def isIdentStart (c : Char) : Bool :=
  c.isAlpha || c = '_'

/-- Continuation characters of the identifier rule: `[a-zA-Z0-9_]`. -/
def isIdentChar (c : Char) : Bool :=
  c.isAlphanum || c = '_'

/-- The keyword alternation `AND|OR|NOT` of next_token: a prefix match at
the current position, returning the token, the matched length and the rest. -/
def matchKeyword : List Char → Option (Token × Nat × List Char)
  | 'A' :: 'N' :: 'D' :: rest => some (Token.AND, 3, rest)
  | 'O' :: 'R' :: rest => some (Token.OR, 2, rest)
  | 'N' :: 'O' :: 'T' :: rest => some (Token.NOT, 3, rest)
  | _ => none

/-- LogicParser.next_token on the remaining characters and current position:
skip spaces; at end of input produce no token; otherwise try parentheses,
then the keyword alternation, then the identifier rule, else fail.  Returns
the token (none at end of input), the remaining characters and the new
position. -/
def nextTokenAux : List Char → Nat → Except Err (Option Token × List Char × Nat)
  | [], pos => Except.ok (none, [], pos)
  | c :: cs, pos =>
    if c = ' ' then
      nextTokenAux cs (pos + 1)
    else if c = '(' then
      Except.ok (some Token.LPAREN, cs, pos + 1)
    else if c = ')' then
      Except.ok (some Token.RPAREN, cs, pos + 1)
    else
      match matchKeyword (c :: cs) with
      | some (tok, n, rest) => Except.ok (some tok, rest, pos + n)
      | none =>
        if isIdentStart c then
          let tl := cs.takeWhile isIdentChar
          Except.ok (some (Token.IDENTIFIER (String.mk (c :: tl))),
            cs.dropWhile isIdentChar, pos + 1 + tl.length)
        else
          Except.error (Err.invalidChar pos)

/-- Run next_token to exhaustion, collecting the token sequence. -/
def tokenizeAll : Nat → List Char → Nat → Except Err (List Token)
  | 0, _, _ => Except.error Err.outOfFuel
  | fuel + 1, cs, pos => do
    let (tok, rest, pos') ← nextTokenAux cs pos
    match tok with
    | none => Except.ok []
    | some t => do
      let ts ← tokenizeAll fuel rest pos'
      Except.ok (t :: ts)

/-- The token sequence of a whole input string. -/
def tokenize (s : String) : Except Err (List Token) :=
  tokenizeAll (s.length + 1) s.data 0

/-- Parse-tree nodes, as the dictionaries built in logic_parser.py. -/
inductive Ast where
  | ident (value : String)
  | not (right : Ast)
  | and (left right : Ast)
  | or (left right : Ast)
deriving DecidableEq, Repr

/-- Parser state: the characters not yet scanned, the scan position and the
one-token lookahead (None at end of input). -/
structure PState where
  rest : List Char
  pos : Nat
  current : Option Token
deriving DecidableEq, Repr

/-- Advance the lookahead by one call to next_token. -/
def advance (st : PState) : Except Err PState := do
  let (tok, rest, pos) ← nextTokenAux st.rest st.pos
  Except.ok ⟨rest, pos, tok⟩

mutual

/-- LogicParser.expr: a term, then left-folded OR alternatives. -/
def exprF : Nat → PState → Except Err (Ast × PState)
  | 0, _ => Except.error Err.outOfFuel
  | fuel + 1, st => do
    let (left, st') ← termF fuel st
    exprLoopF fuel left st'

/-- The `while current is OR` loop inside LogicParser.expr. -/
def exprLoopF : Nat → Ast → PState → Except Err (Ast × PState)
  | 0, _, _ => Except.error Err.outOfFuel
  | fuel + 1, left, st =>
    match st.current with
    | some Token.OR => do
      let st' ← advance st
      let (right, st'') ← termF fuel st'
      exprLoopF fuel (Ast.or left right) st''
    | _ => Except.ok (left, st)

/-- LogicParser.term: a factor, then left-folded AND alternatives. -/
def termF : Nat → PState → Except Err (Ast × PState)
  | 0, _ => Except.error Err.outOfFuel
  | fuel + 1, st => do
    let (left, st') ← factorF fuel st
    termLoopF fuel left st'

/-- The `while current is AND` loop inside LogicParser.term. -/
def termLoopF : Nat → Ast → PState → Except Err (Ast × PState)
  | 0, _, _ => Except.error Err.outOfFuel
  | fuel + 1, left, st =>
    match st.current with
    | some Token.AND => do
      let st' ← advance st
      let (right, st'') ← factorF fuel st'
      termLoopF fuel (Ast.and left right) st''
    | _ => Except.ok (left, st)

/-- LogicParser.factor: NOT factor, a parenthesised expr, or an identifier;
anything else raises "Invalid factor", a missing ')' raises "Missing
closing parenthesis". -/
def factorF : Nat → PState → Except Err (Ast × PState)
  | 0, _ => Except.error Err.outOfFuel
  | fuel + 1, st =>
    match st.current with
    | some Token.NOT => do
      let st' ← advance st
      let (node, st'') ← factorF fuel st'
      Except.ok (Ast.not node, st'')
    | some Token.LPAREN => do
      let st' ← advance st
      let (node, st'') ← exprF fuel st'
      match st''.current with
      | some Token.RPAREN => do
        let st''' ← advance st''
        Except.ok (node, st''')
      | _ => Except.error Err.missingClosingParen
    | some (Token.IDENTIFIER v) => do
      let st' ← advance st
      Except.ok (Ast.ident v, st')
    | _ => Except.error Err.invalidFactor

end

/-- LogicParser.parse, keeping the final parser state: initialize the
lookahead, then run expr.  No end-of-input check follows the top-level
expression. -/
def parseRun (s : String) : Except Err (Ast × PState) := do
  let (tok, rest, pos) ← nextTokenAux s.data 0
  exprF (2 * s.length + 8) ⟨rest, pos, tok⟩

/-- LogicParser.parse: the AST alone, as returned to callers. -/
def parse (s : String) : Except Err Ast :=
  (parseRun s).map Prod.fst

/-- circuit_generator.Gate: a gate carries its id and, mirroring the
Python `inputs` list, a variable name for INPUT gates and the operand
gate objects otherwise (the gate graph is a tree, so direct references
model the Python object references). -/
inductive Gate where
  | input (gate_id : Nat) (vname : String)
  | not (gate_id : Nat) (operand : Gate)
  | and (gate_id : Nat) (left right : Gate)
  | or (gate_id : Nat) (left right : Gate)
deriving DecidableEq, Repr

/-- The gate_id field of a gate. -/
def Gate.gateId : Gate → Nat
  | .input i _ => i
  | .not i _ => i
  | .and i _ _ => i
  | .or i _ _ => i

/-- The operand gates of a gate (empty for an INPUT gate, whose `inputs`
list holds only the variable name). -/
def Gate.operands : Gate → List Gate
  | .input _ _ => []
  | .not _ g => [g]
  | .and _ l r => [l, r]
  | .or _ l r => [l, r]

/-- Whether a gate is an INPUT gate. -/
def Gate.isInput : Gate → Bool
  | .input _ _ => true
  | _ => false

/-- Gate.evaluate: an INPUT gate reads `variable_values.get(var, False)`
(first-match lookup with default false); NOT negates its operand; AND and
OR evaluate both operands and combine them. -/
def Gate.evaluate : Gate → List (String × Bool) → Bool
  | .input _ v, a => ((a.lookup v).getD false)
  | .not _ g, a => !(g.evaluate a)
  | .and _ l r, a => (l.evaluate a && r.evaluate a)
  | .or _ l r, a => (l.evaluate a || r.evaluate a)

/-- The mutable fields of CircuitGenerator during _build_circuit: the gates
emitted so far (construction order), the set of variable names seen so far
(modelled as a duplicate-free list) and the id counter. -/
structure BuildState where
  gates : List Gate
  input_variables : List String
  gate_counter : Nat
deriving Repr

/-- Adding a variable name to the input_variables set. -/
def addVar (s : List String) (v : String) : List String :=
  if v ∈ s then s else s ++ [v]

/-- CircuitGenerator._build_circuit: recursively lower the AST, appending
each finished gate to the gates list with the next id. -/
def buildCircuit : Ast → BuildState → Gate × BuildState
  | .ident v, s =>
    let g := Gate.input s.gate_counter v
    (g, ⟨s.gates ++ [g], addVar s.input_variables v, s.gate_counter + 1⟩)
  | .not t, s =>
    match buildCircuit t s with
    | (child, s1) =>
      let g := Gate.not s1.gate_counter child
      (g, ⟨s1.gates ++ [g], s1.input_variables, s1.gate_counter + 1⟩)
  | .and l r, s =>
    match buildCircuit l s with
    | (gl, s1) =>
      match buildCircuit r s1 with
      | (gr, s2) =>
        let g := Gate.and s2.gate_counter gl gr
        (g, ⟨s2.gates ++ [g], s2.input_variables, s2.gate_counter + 1⟩)
  | .or l r, s =>
    match buildCircuit l s with
    | (gl, s1) =>
      match buildCircuit r s1 with
      | (gr, s2) =>
        let g := Gate.or s2.gate_counter gl gr
        (g, ⟨s2.gates ++ [g], s2.input_variables, s2.gate_counter + 1⟩)

/-- The circuit dictionary returned by CircuitGenerator.generate. -/
structure Circuit where
  gates : List Gate
  output_gate : Gate
  inputs : List String
deriving Repr

/-- CircuitGenerator.generate: build from a fresh generator state and
return the gates, the output gate and `sorted(list(input_variables))`. -/
def generate (t : Ast) : Circuit :=
  { gates := (buildCircuit t ⟨[], [], 0⟩).2.gates
    output_gate := (buildCircuit t ⟨[], [], 0⟩).1
    inputs := List.insertionSort (· ≤ ·) (buildCircuit t ⟨[], [], 0⟩).2.input_variables }

/-- The identifier occurrences of an AST, in left-to-right order. -/
def astVars : Ast → List String
  | .ident v => [v]
  | .not t => astVars t
  | .and l r => astVars l ++ astVars r
  | .or l r => astVars l ++ astVars r

/-- The number of AST nodes. -/
def sizeA : Ast → Nat
  | .ident _ => 1
  | .not t => sizeA t + 1
  | .and l r => sizeA l + sizeA r + 1
  | .or l r => sizeA l + sizeA r + 1

/-- The variable fields of the INPUT gates of a gate list, in order. -/
def inputVarsOf (gs : List Gate) : List String :=
  gs.filterMap fun g =>
    match g with
    | .input _ v => some v
    | _ => none

/-- Recursion core of toBin: the first argument is fuel bounding the
depth of the repeated halving (the value itself always suffices, as the
congruence lemma below proves). -/
def toBinAux : Nat → Nat → List Bool
  | 0, _ => []
  | fuel + 1, n => if n = 0 then [] else toBinAux fuel (n / 2) ++ [n % 2 == 1]

/-- The binary digits of a natural number, most significant first, as
Python's format(i, 'b') produces them (empty for 0, whose padding below
yields the same digits as the "0" Python prints). -/
def toBin (n : Nat) : List Bool := toBinAux n n

/-- format(i, '0kb'): the binary digits of i zero-padded on the left to
width k, most significant first. -/
def padBits (k i : Nat) : List Bool :=
  List.replicate (k - (toBin i).length) false ++ toBin i

/-- Python dictionary assignment d[k] = v on a dictionary modelled as an
association list with distinct keys: when the key is present its entry is
updated in place (position preserved), otherwise the pair is appended. -/
def dictSet (d : List (String × Bool)) (k : String) (v : Bool) : List (String × Bool) :=
  if (d.lookup k).isSome then
    d.map fun p => if p.1 = k then (k, v) else p
  else
    d ++ [(k, v)]

/-- CircuitGenerator.generate_truth_table: for each i below 2^k derive the
k-bit binary pattern of i, assign bit j to inputs[j], evaluate the output
gate, then build the row dictionary over the inputs and store the result
under the key "Output" in the same dictionary — so a variable literally
named "Output" has its recorded value overwritten, exactly as Python's
row dict does. -/
def generateTruthTable (c : Circuit) : List (List (String × Bool)) :=
  (List.range (2 ^ c.inputs.length)).map fun i =>
    let binary := padBits c.inputs.length i
    let variable_values := c.inputs.zip binary
    let output := c.output_gate.evaluate variable_values
    let row := c.inputs.map fun v => (v, (variable_values.lookup v).getD false)
    dictSet row "Output" output

/-- Parse a string and evaluate the generated circuit under the assignment
A, B, C ↦ a, b, c (none when parsing fails). -/
def evalStr (s : String) (a b c : Bool) : Option Bool :=
  (parse s).toOption.map fun t =>
    ((generate t).output_gate).evaluate [("A", a), ("B", b), ("C", c)]

theorem toBinAux_congr (n : Nat) : ∀ f1 f2 : Nat, n ≤ f1 → n ≤ f2 →
    toBinAux f1 n = toBinAux f2 n := by
  induction n using Nat.strong_induction_on with
  | _ n ih =>
    intro f1 f2 h1 h2
    rcases n with _ | m
    · have hz : ∀ f : Nat, toBinAux f 0 = [] := by
        intro f
        cases f <;> simp [toBinAux]
      rw [hz, hz]
    · rcases f1 with _ | a
      · omega
      rcases f2 with _ | b
      · omega
      simp only [toBinAux, if_neg (Nat.succ_ne_zero m)]
      congr 1
      exact ih ((m + 1) / 2) (by omega) a b (by omega) (by omega)

theorem toBin_zero : toBin 0 = [] := rfl

theorem toBin_pos (n : Nat) (h : n ≠ 0) : toBin n = toBin (n / 2) ++ [n % 2 == 1] := by
  rcases n with _ | m
  · exact absurd rfl h
  show toBinAux (m + 1) (m + 1) = toBinAux ((m + 1) / 2) ((m + 1) / 2) ++ _
  simp only [toBinAux, if_neg (Nat.succ_ne_zero m)]
  congr 1
  exact toBinAux_congr ((m + 1) / 2) m ((m + 1) / 2) (by omega) (by omega)

theorem padBits_zero (k : Nat) : padBits k 0 = List.replicate k false := by
  simp [padBits, toBin_zero]

theorem padBits_succ (k i : Nat) :
    padBits (k + 1) i = padBits k (i / 2) ++ [i % 2 == 1] := by
  by_cases h : i = 0
  · subst h
    simp [padBits_zero, Nat.zero_div, List.replicate_succ']
  · rw [padBits, padBits, toBin_pos i h]
    rw [List.length_append, List.length_singleton]
    rw [Nat.succ_sub_succ_eq_sub]
    simp [List.append_assoc]

theorem div_two_lt_pow {k i : Nat} (h : i < 2 ^ (k + 1)) : i / 2 < 2 ^ k := by
  rw [Nat.div_lt_iff_lt_mul (by decide : 0 < 2)]
  calc i < 2 ^ (k + 1) := h
    _ = 2 ^ k * 2 := by rw [Nat.pow_succ]

theorem padBits_length (k i : Nat) (h : i < 2 ^ k) : (padBits k i).length = k := by
  induction k generalizing i with
  | zero =>
    have : i = 0 := by omega
    subst this
    simp [padBits_zero]
  | succ k ih =>
    rw [padBits_succ, List.length_append, List.length_singleton,
      ih (i / 2) (div_two_lt_pow h)]

theorem padBits_getElem? (k i : Nat) (h : i < 2 ^ k) (j : Nat) (hj : j < k) :
    (padBits k i)[j]? = some (i.testBit (k - 1 - j)) := by
  induction k generalizing i j with
  | zero => omega
  | succ k ih =>
    rw [padBits_succ]
    have hlen : (padBits k (i / 2)).length = k :=
      padBits_length k (i / 2) (div_two_lt_pow h)
    rcases Nat.lt_or_ge j k with hjk | hjk
    · rw [List.getElem?_append_left (by rw [hlen]; exact hjk)]
      rw [ih (i / 2) (div_two_lt_pow h) j hjk]
      have harith : k + 1 - 1 - j = (k - 1 - j) + 1 := by omega
      rw [harith, Nat.testBit_succ]
    · have hje : j = k := by omega
      subst hje
      rw [List.getElem?_append_right (by rw [hlen])]
      rw [hlen]
      simp only [Nat.sub_self, List.getElem?_cons_zero, Nat.add_sub_cancel,
        Nat.sub_self, Nat.testBit_zero]
      rcases Nat.mod_two_eq_zero_or_one i with h2 | h2 <;> simp [h2]

theorem lookup_zip {β : Type} (l : List String) (bs : List β) (hnd : l.Nodup)
    (j : Nat) (hj : j < l.length) (hb : j < bs.length) :
    (l.zip bs).lookup (l[j]) = some (bs[j]) := by
  induction l generalizing bs j with
  | nil => simp at hj
  | cons a l ih =>
    cases bs with
    | nil => simp at hb
    | cons b bs =>
      cases j with
      | zero => simp
      | succ j =>
        have hnotmem : a ∉ l := (List.nodup_cons.mp hnd).1
        have hjl : j < l.length := by simpa using hj
        have hmem : l[j] ∈ l := List.getElem_mem hjl
        have hne : (l[j] == a) = false := by
          refine beq_eq_false_iff_ne.mpr ?_
          intro he
          exact hnotmem (he ▸ hmem)
        simp only [List.zip_cons_cons, List.getElem_cons_succ, List.lookup_cons, hne]
        exact ih bs (List.nodup_cons.mp hnd).2 j hjl (by simpa using hb)

theorem map_lookup_zip {β : Type} (l : List String) (bs : List β) (dflt : β)
    (hnd : l.Nodup) (hlen : l.length ≤ bs.length) :
    (l.map fun v => (v, ((l.zip bs).lookup v).getD dflt)) = l.zip bs := by
  induction l generalizing bs with
  | nil => simp
  | cons a l ih =>
    cases bs with
    | nil => simp at hlen
    | cons b bs =>
      have hnotmem : a ∉ l := (List.nodup_cons.mp hnd).1
      simp only [List.zip_cons_cons, List.map_cons, List.lookup_cons_self,
        Option.getD_some, List.cons.injEq, true_and]
      rw [List.map_congr_left (g := fun v => (v, ((l.zip bs).lookup v).getD dflt))]
      · exact ih bs (List.nodup_cons.mp hnd).2 (by simpa using hlen)
      · intro v hv
        have hne : (v == a) = false := by
          refine beq_eq_false_iff_ne.mpr ?_
          intro he
          exact hnotmem (he ▸ hv)
        simp [List.lookup_cons, hne]

theorem sizeA_pos (t : Ast) : 1 ≤ sizeA t := by
  cases t <;> simp only [sizeA] <;> omega

theorem bc_counter (t : Ast) : ∀ s : BuildState,
    (buildCircuit t s).2.gate_counter = s.gate_counter + sizeA t := by
  induction t with
  | ident v => intro s; simp [buildCircuit, sizeA]
  | not t ih =>
    intro s
    simp only [buildCircuit]
    rcases h : buildCircuit t s with ⟨child, s1⟩
    have hc := ih s
    rw [h] at hc
    simp only at hc
    simp only [sizeA]
    omega
  | and l r ihl ihr =>
    intro s
    simp only [buildCircuit]
    rcases h1 : buildCircuit l s with ⟨gl, s1⟩
    rcases h2 : buildCircuit r s1 with ⟨gr, s2⟩
    have hc1 := ihl s
    have hc2 := ihr s1
    rw [h1] at hc1
    rw [h2] at hc2
    simp only at hc1 hc2
    simp only [sizeA]
    omega
  | or l r ihl ihr =>
    intro s
    simp only [buildCircuit]
    rcases h1 : buildCircuit l s with ⟨gl, s1⟩
    rcases h2 : buildCircuit r s1 with ⟨gr, s2⟩
    have hc1 := ihl s
    have hc2 := ihr s1
    rw [h1] at hc1
    rw [h2] at hc2
    simp only at hc1 hc2
    simp only [sizeA]
    omega

theorem bc_gid (t : Ast) : ∀ s : BuildState,
    (buildCircuit t s).1.gateId + 1 = (buildCircuit t s).2.gate_counter := by
  cases t with
  | ident v => intro s; simp [buildCircuit, Gate.gateId]
  | not t =>
    intro s
    simp only [buildCircuit]
    rcases h : buildCircuit t s with ⟨child, s1⟩
    simp [Gate.gateId]
  | and l r =>
    intro s
    simp only [buildCircuit]
    rcases h1 : buildCircuit l s with ⟨gl, s1⟩
    rcases h2 : buildCircuit r s1 with ⟨gr, s2⟩
    simp [Gate.gateId]
  | or l r =>
    intro s
    simp only [buildCircuit]
    rcases h1 : buildCircuit l s with ⟨gl, s1⟩
    rcases h2 : buildCircuit r s1 with ⟨gr, s2⟩
    simp [Gate.gateId]

theorem bc_gates_shape (t : Ast) : ∀ s : BuildState,
    ∃ d, (buildCircuit t s).2.gates = s.gates ++ d ++ [(buildCircuit t s).1] := by
  induction t with
  | ident v => intro s; exact ⟨[], by simp [buildCircuit]⟩
  | not t ih =>
    intro s
    simp only [buildCircuit]
    rcases h : buildCircuit t s with ⟨child, s1⟩
    obtain ⟨d, hd⟩ := ih s
    rw [h] at hd
    simp only at hd
    exact ⟨d ++ [child], by simp [hd]⟩
  | and l r ihl ihr =>
    intro s
    simp only [buildCircuit]
    rcases h1 : buildCircuit l s with ⟨gl, s1⟩
    rcases h2 : buildCircuit r s1 with ⟨gr, s2⟩
    obtain ⟨d1, hd1⟩ := ihl s
    obtain ⟨d2, hd2⟩ := ihr s1
    rw [h1] at hd1
    rw [h2] at hd2
    refine ⟨d1 ++ [gl] ++ d2 ++ [gr], ?_⟩
    simp only at hd1 hd2
    simp [hd2, hd1]
  | or l r ihl ihr =>
    intro s
    simp only [buildCircuit]
    rcases h1 : buildCircuit l s with ⟨gl, s1⟩
    rcases h2 : buildCircuit r s1 with ⟨gr, s2⟩
    obtain ⟨d1, hd1⟩ := ihl s
    obtain ⟨d2, hd2⟩ := ihr s1
    rw [h1] at hd1
    rw [h2] at hd2
    refine ⟨d1 ++ [gl] ++ d2 ++ [gr], ?_⟩
    simp only at hd1 hd2
    simp [hd2, hd1]

theorem bc_gates_length (t : Ast) : ∀ s : BuildState,
    (buildCircuit t s).2.gates.length = s.gates.length + sizeA t := by
  induction t with
  | ident v => intro s; simp [buildCircuit, sizeA]
  | not t ih =>
    intro s
    simp only [buildCircuit]
    rcases h : buildCircuit t s with ⟨child, s1⟩
    have hc := ih s
    rw [h] at hc
    simp only at hc
    simp only [List.length_append, List.length_singleton, sizeA, hc]
    omega
  | and l r ihl ihr =>
    intro s
    simp only [buildCircuit]
    rcases h1 : buildCircuit l s with ⟨gl, s1⟩
    rcases h2 : buildCircuit r s1 with ⟨gr, s2⟩
    have hc1 := ihl s
    have hc2 := ihr s1
    rw [h1] at hc1
    rw [h2] at hc2
    simp only at hc1 hc2
    simp only [List.length_append, List.length_singleton, sizeA, hc1, hc2]
    omega
  | or l r ihl ihr =>
    intro s
    simp only [buildCircuit]
    rcases h1 : buildCircuit l s with ⟨gl, s1⟩
    rcases h2 : buildCircuit r s1 with ⟨gr, s2⟩
    have hc1 := ihl s
    have hc2 := ihr s1
    rw [h1] at hc1
    rw [h2] at hc2
    simp only at hc1 hc2
    simp only [List.length_append, List.length_singleton, sizeA, hc1, hc2]
    omega

theorem inputVarsOf_append (gs hs : List Gate) :
    inputVarsOf (gs ++ hs) = inputVarsOf gs ++ inputVarsOf hs := by
  simp [inputVarsOf]

theorem bc_inputVars (t : Ast) : ∀ s : BuildState,
    inputVarsOf (buildCircuit t s).2.gates = inputVarsOf s.gates ++ astVars t := by
  induction t with
  | ident v => intro s; simp [buildCircuit, astVars, inputVarsOf_append, inputVarsOf]
  | not t ih =>
    intro s
    simp only [buildCircuit]
    rcases h : buildCircuit t s with ⟨child, s1⟩
    have hc := ih s
    rw [h] at hc
    simp only at hc
    rw [inputVarsOf_append, hc]
    simp [inputVarsOf, astVars]
  | and l r ihl ihr =>
    intro s
    simp only [buildCircuit]
    rcases h1 : buildCircuit l s with ⟨gl, s1⟩
    rcases h2 : buildCircuit r s1 with ⟨gr, s2⟩
    have hc1 := ihl s
    have hc2 := ihr s1
    rw [h1] at hc1
    rw [h2] at hc2
    simp only at hc1 hc2
    rw [inputVarsOf_append, hc2, hc1]
    simp [inputVarsOf, astVars]
  | or l r ihl ihr =>
    intro s
    simp only [buildCircuit]
    rcases h1 : buildCircuit l s with ⟨gl, s1⟩
    rcases h2 : buildCircuit r s1 with ⟨gr, s2⟩
    have hc1 := ihl s
    have hc2 := ihr s1
    rw [h1] at hc1
    rw [h2] at hc2
    simp only at hc1 hc2
    rw [inputVarsOf_append, hc2, hc1]
    simp [inputVarsOf, astVars]

theorem mem_addVar (s : List String) (v w : String) :
    w ∈ addVar s v ↔ w ∈ s ∨ w = v := by
  by_cases h : v ∈ s
  · simp only [addVar, if_pos h]
    constructor
    · exact fun hw => Or.inl hw
    · rintro (hw | rfl)
      · exact hw
      · exact h
  · simp [addVar, if_neg h]

theorem nodup_addVar (s : List String) (v : String) (h : s.Nodup) :
    (addVar s v).Nodup := by
  by_cases hv : v ∈ s
  · simpa [addVar, if_pos hv] using h
  · simp only [addVar, if_neg hv]
    simpa [List.nodup_append] using ⟨h, fun hw => hv hw⟩

theorem bc_memVars (t : Ast) : ∀ (s : BuildState) (v : String),
    v ∈ (buildCircuit t s).2.input_variables ↔ v ∈ s.input_variables ∨ v ∈ astVars t := by
  induction t with
  | ident w =>
    intro s v
    simp [buildCircuit, astVars, mem_addVar]
  | not t ih =>
    intro s v
    simp only [buildCircuit]
    rcases h : buildCircuit t s with ⟨child, s1⟩
    have hc := ih s v
    rw [h] at hc
    simp only at hc
    simpa [astVars] using hc
  | and l r ihl ihr =>
    intro s v
    simp only [buildCircuit]
    rcases h1 : buildCircuit l s with ⟨gl, s1⟩
    rcases h2 : buildCircuit r s1 with ⟨gr, s2⟩
    have hc1 := ihl s v
    have hc2 := ihr s1 v
    rw [h1] at hc1
    rw [h2] at hc2
    simp only at hc1 hc2
    simp only [astVars, List.mem_append]
    rw [hc2, hc1]
    tauto
  | or l r ihl ihr =>
    intro s v
    simp only [buildCircuit]
    rcases h1 : buildCircuit l s with ⟨gl, s1⟩
    rcases h2 : buildCircuit r s1 with ⟨gr, s2⟩
    have hc1 := ihl s v
    have hc2 := ihr s1 v
    rw [h1] at hc1
    rw [h2] at hc2
    simp only at hc1 hc2
    simp only [astVars, List.mem_append]
    rw [hc2, hc1]
    tauto

theorem bc_nodupVars (t : Ast) : ∀ s : BuildState,
    s.input_variables.Nodup → (buildCircuit t s).2.input_variables.Nodup := by
  induction t with
  | ident v => intro s hs; simpa [buildCircuit] using nodup_addVar _ _ hs
  | not t ih =>
    intro s hs
    simp only [buildCircuit]
    rcases h : buildCircuit t s with ⟨child, s1⟩
    have hc := ih s hs
    rw [h] at hc
    simpa using hc
  | and l r ihl ihr =>
    intro s hs
    simp only [buildCircuit]
    rcases h1 : buildCircuit l s with ⟨gl, s1⟩
    rcases h2 : buildCircuit r s1 with ⟨gr, s2⟩
    have hc1 := ihl s hs
    rw [h1] at hc1
    simp only at hc1
    have hc2 := ihr s1 hc1
    rw [h2] at hc2
    simpa using hc2
  | or l r ihl ihr =>
    intro s hs
    simp only [buildCircuit]
    rcases h1 : buildCircuit l s with ⟨gl, s1⟩
    rcases h2 : buildCircuit r s1 with ⟨gr, s2⟩
    have hc1 := ihl s hs
    rw [h1] at hc1
    simp only at hc1
    have hc2 := ihr s1 hc1
    rw [h2] at hc2
    simpa using hc2

theorem bc_idsRange (t : Ast) : ∀ s : BuildState,
    s.gate_counter = s.gates.length →
    s.gates.map Gate.gateId = List.range s.gates.length →
    (buildCircuit t s).2.gates.map Gate.gateId =
      List.range (buildCircuit t s).2.gates.length := by
  induction t with
  | ident v =>
    intro s hcl hr
    simp only [buildCircuit, List.map_append, List.length_append, hr,
      List.length_singleton, List.map_cons, List.map_nil, Gate.gateId, hcl]
    rw [List.range_succ]
  | not t ih =>
    intro s hcl hr
    simp only [buildCircuit]
    rcases h : buildCircuit t s with ⟨child, s1⟩
    have hr1 := ih s hcl hr
    have hc1 := bc_counter t s
    have hl1 := bc_gates_length t s
    rw [h] at hr1 hc1 hl1
    simp only at hr1 hc1 hl1
    have hcl1 : s1.gate_counter = s1.gates.length := by omega
    simp only [List.map_append, List.length_append, hr1, List.length_singleton,
      List.map_cons, List.map_nil, Gate.gateId, hcl1]
    rw [List.range_succ]
  | and l r ihl ihr =>
    intro s hcl hr
    simp only [buildCircuit]
    rcases h1 : buildCircuit l s with ⟨gl, s1⟩
    rcases h2 : buildCircuit r s1 with ⟨gr, s2⟩
    have hr1 := ihl s hcl hr
    have hc1 := bc_counter l s
    have hl1 := bc_gates_length l s
    rw [h1] at hr1 hc1 hl1
    simp only at hr1 hc1 hl1
    have hcl1 : s1.gate_counter = s1.gates.length := by omega
    have hr2 := ihr s1 hcl1 hr1
    have hc2 := bc_counter r s1
    have hl2 := bc_gates_length r s1
    rw [h2] at hr2 hc2 hl2
    simp only at hr2 hc2 hl2
    have hcl2 : s2.gate_counter = s2.gates.length := by omega
    simp only [List.map_append, List.length_append, hr2, List.length_singleton,
      List.map_cons, List.map_nil, Gate.gateId, hcl2]
    rw [List.range_succ]
  | or l r ihl ihr =>
    intro s hcl hr
    simp only [buildCircuit]
    rcases h1 : buildCircuit l s with ⟨gl, s1⟩
    rcases h2 : buildCircuit r s1 with ⟨gr, s2⟩
    have hr1 := ihl s hcl hr
    have hc1 := bc_counter l s
    have hl1 := bc_gates_length l s
    rw [h1] at hr1 hc1 hl1
    simp only at hr1 hc1 hl1
    have hcl1 : s1.gate_counter = s1.gates.length := by omega
    have hr2 := ihr s1 hcl1 hr1
    have hc2 := bc_counter r s1
    have hl2 := bc_gates_length r s1
    rw [h2] at hr2 hc2 hl2
    simp only at hr2 hc2 hl2
    have hcl2 : s2.gate_counter = s2.gates.length := by omega
    simp only [List.map_append, List.length_append, hr2, List.length_singleton,
      List.map_cons, List.map_nil, Gate.gateId, hcl2]
    rw [List.range_succ]

theorem bc_wellOrdered (t : Ast) : ∀ s : BuildState,
    (∀ g ∈ s.gates, g.gateId < s.gate_counter) →
    (∀ g ∈ s.gates, ∀ op ∈ g.operands, op.gateId < g.gateId ∧ op ∈ s.gates) →
    (∀ g ∈ (buildCircuit t s).2.gates, g.gateId < (buildCircuit t s).2.gate_counter) ∧
    (∀ g ∈ (buildCircuit t s).2.gates, ∀ op ∈ g.operands,
      op.gateId < g.gateId ∧ op ∈ (buildCircuit t s).2.gates) := by
  induction t with
  | ident v =>
    intro s hlt hwo
    simp only [buildCircuit]
    constructor
    · intro g hg
      rcases List.mem_append.mp hg with hg | hg
      · exact Nat.lt_succ_of_lt (hlt g hg)
      · rw [List.mem_singleton.mp hg]
        simp [Gate.gateId]
    · intro g hg op hop
      rcases List.mem_append.mp hg with hg | hg
      · obtain ⟨h1, h2⟩ := hwo g hg op hop
        exact ⟨h1, List.mem_append_left _ h2⟩
      · rw [List.mem_singleton.mp hg] at hop
        simp [Gate.operands] at hop
  | not t ih =>
    intro s hlt hwo
    simp only [buildCircuit]
    rcases h : buildCircuit t s with ⟨child, s1⟩
    have hIH := ih s hlt hwo
    rw [h] at hIH
    simp only at hIH
    obtain ⟨hlt1, hwo1⟩ := hIH
    have hsh := bc_gates_shape t s
    rw [h] at hsh
    simp only at hsh
    obtain ⟨d, hd⟩ := hsh
    have hchildmem : child ∈ s1.gates := by rw [hd]; simp
    constructor
    · intro g hg
      rcases List.mem_append.mp hg with hg | hg
      · exact Nat.lt_succ_of_lt (hlt1 g hg)
      · rw [List.mem_singleton.mp hg]
        simp [Gate.gateId]
    · intro g hg op hop
      rcases List.mem_append.mp hg with hg | hg
      · obtain ⟨ha, hb⟩ := hwo1 g hg op hop
        exact ⟨ha, List.mem_append_left _ hb⟩
      · rw [List.mem_singleton.mp hg] at hop ⊢
        simp only [Gate.operands, List.mem_singleton] at hop
        subst hop
        exact ⟨hlt1 _ hchildmem, List.mem_append_left _ hchildmem⟩
  | and l r ihl ihr =>
    intro s hlt hwo
    simp only [buildCircuit]
    rcases h1 : buildCircuit l s with ⟨gl, s1⟩
    rcases h2 : buildCircuit r s1 with ⟨gr, s2⟩
    have hIH1 := ihl s hlt hwo
    rw [h1] at hIH1
    simp only at hIH1
    obtain ⟨hlt1, hwo1⟩ := hIH1
    have hIH2 := ihr s1 hlt1 hwo1
    rw [h2] at hIH2
    simp only at hIH2
    obtain ⟨hlt2, hwo2⟩ := hIH2
    have hsh1 := bc_gates_shape l s
    rw [h1] at hsh1
    simp only at hsh1
    obtain ⟨d1, hd1⟩ := hsh1
    have hsh2 := bc_gates_shape r s1
    rw [h2] at hsh2
    simp only at hsh2
    obtain ⟨d2, hd2⟩ := hsh2
    have hglmem1 : gl ∈ s1.gates := by rw [hd1]; simp
    have hglmem : gl ∈ s2.gates := by rw [hd2]; exact List.mem_append_left _ (List.mem_append_left _ hglmem1)
    have hgrmem : gr ∈ s2.gates := by rw [hd2]; simp
    have hcc := bc_counter r s1
    rw [h2] at hcc
    simp only at hcc
    have hle : s1.gate_counter ≤ s2.gate_counter := by
      have := sizeA_pos r
      omega
    constructor
    · intro g hg
      rcases List.mem_append.mp hg with hg | hg
      · exact Nat.lt_succ_of_lt (hlt2 g hg)
      · rw [List.mem_singleton.mp hg]
        simp [Gate.gateId]
    · intro g hg op hop
      rcases List.mem_append.mp hg with hg | hg
      · obtain ⟨ha, hb⟩ := hwo2 g hg op hop
        exact ⟨ha, List.mem_append_left _ hb⟩
      · rw [List.mem_singleton.mp hg] at hop ⊢
        simp only [Gate.operands, List.mem_cons, List.mem_singleton,
          List.not_mem_nil, or_false] at hop
        rcases hop with rfl | rfl
        · refine ⟨?_, List.mem_append_left _ hglmem⟩
          simp only [Gate.gateId]
          exact Nat.lt_of_lt_of_le (hlt1 _ hglmem1) hle
        · exact ⟨hlt2 _ hgrmem, List.mem_append_left _ hgrmem⟩
  | or l r ihl ihr =>
    intro s hlt hwo
    simp only [buildCircuit]
    rcases h1 : buildCircuit l s with ⟨gl, s1⟩
    rcases h2 : buildCircuit r s1 with ⟨gr, s2⟩
    have hIH1 := ihl s hlt hwo
    rw [h1] at hIH1
    simp only at hIH1
    obtain ⟨hlt1, hwo1⟩ := hIH1
    have hIH2 := ihr s1 hlt1 hwo1
    rw [h2] at hIH2
    simp only at hIH2
    obtain ⟨hlt2, hwo2⟩ := hIH2
    have hsh1 := bc_gates_shape l s
    rw [h1] at hsh1
    simp only at hsh1
    obtain ⟨d1, hd1⟩ := hsh1
    have hsh2 := bc_gates_shape r s1
    rw [h2] at hsh2
    simp only at hsh2
    obtain ⟨d2, hd2⟩ := hsh2
    have hglmem1 : gl ∈ s1.gates := by rw [hd1]; simp
    have hglmem : gl ∈ s2.gates := by rw [hd2]; exact List.mem_append_left _ (List.mem_append_left _ hglmem1)
    have hgrmem : gr ∈ s2.gates := by rw [hd2]; simp
    have hcc := bc_counter r s1
    rw [h2] at hcc
    simp only at hcc
    have hle : s1.gate_counter ≤ s2.gate_counter := by
      have := sizeA_pos r
      omega
    constructor
    · intro g hg
      rcases List.mem_append.mp hg with hg | hg
      · exact Nat.lt_succ_of_lt (hlt2 g hg)
      · rw [List.mem_singleton.mp hg]
        simp [Gate.gateId]
    · intro g hg op hop
      rcases List.mem_append.mp hg with hg | hg
      · obtain ⟨ha, hb⟩ := hwo2 g hg op hop
        exact ⟨ha, List.mem_append_left _ hb⟩
      · rw [List.mem_singleton.mp hg] at hop ⊢
        simp only [Gate.operands, List.mem_cons, List.mem_singleton,
          List.not_mem_nil, or_false] at hop
        rcases hop with rfl | rfl
        · refine ⟨?_, List.mem_append_left _ hglmem⟩
          simp only [Gate.gateId]
          exact Nat.lt_of_lt_of_le (hlt1 _ hglmem1) hle
        · exact ⟨hlt2 _ hgrmem, List.mem_append_left _ hgrmem⟩

theorem astVars_ne_nil (t : Ast) : astVars t ≠ [] := by
  induction t with
  | ident v => simp [astVars]
  | not t ih => simpa [astVars] using ih
  | and l r ihl ihr =>
    simp only [astVars, ne_eq, List.append_eq_nil]
    intro ⟨ha, _⟩
    exact ihl ha
  | or l r ihl ihr =>
    simp only [astVars, ne_eq, List.append_eq_nil]
    intro ⟨ha, _⟩
    exact ihl ha

/-- C7: in every circuit built from an AST, the gate ids listed in
construction order are exactly 0, 1, 2, ... (post-order numbering starting
at 0, strictly increasing, children numbered before their parent), and
every gate's operands have strictly smaller ids and appear in the gates
list, so construction order is a valid topological order. -/
theorem c7_postorder_topological (t : Ast) :
    (generate t).gates.map Gate.gateId = List.range (generate t).gates.length ∧
    ∀ g ∈ (generate t).gates, ∀ op ∈ g.operands,
      op.gateId < g.gateId ∧ op ∈ (generate t).gates := by
  constructor
  · simpa [generate] using bc_idsRange t ⟨[], [], 0⟩ rfl rfl
  · have h := bc_wellOrdered t ⟨[], [], 0⟩ (by simp) (by simp)
    simpa [generate] using h.2

theorem generate_inputVars (t : Ast) : inputVarsOf (generate t).gates = astVars t := by
  have h := bc_inputVars t ⟨[], [], 0⟩
  simpa [generate, inputVarsOf] using h

theorem generate_vars_nodup (t : Ast) :
    (buildCircuit t ⟨[], [], 0⟩).2.input_variables.Nodup := by
  exact bc_nodupVars t ⟨[], [], 0⟩ (by simp)

theorem generate_mem_vars (t : Ast) (v : String) :
    v ∈ (buildCircuit t ⟨[], [], 0⟩).2.input_variables ↔ v ∈ astVars t := by
  have h := bc_memVars t ⟨[], [], 0⟩ v
  simpa using h

theorem generate_inputs_perm (t : Ast) :
    (generate t).inputs.Perm (buildCircuit t ⟨[], [], 0⟩).2.input_variables := by
  exact List.perm_insertionSort _ _

theorem generate_inputs_nodup (t : Ast) : (generate t).inputs.Nodup :=
  (generate_inputs_perm t).nodup_iff.mpr (generate_vars_nodup t)

/-- C8: building a circuit emits one INPUT gate per Identifier occurrence,
in traversal order (so a repeated variable yields several distinct INPUT
gates, all ids being distinct); the derived inputs list is strictly
lexicographically sorted (hence duplicate-free), its members are exactly
the variable fields of the INPUT gates, and its length is the number of
distinct identifiers of the expression. -/
theorem c8_input_gates_and_inputs (t : Ast) :
    inputVarsOf (generate t).gates = astVars t ∧
    ((generate t).gates.map Gate.gateId).Nodup ∧
    (generate t).inputs.Sorted (· < ·) ∧
    (∀ v, v ∈ (generate t).inputs ↔ v ∈ inputVarsOf (generate t).gates) ∧
    (generate t).inputs.length = (astVars t).dedup.length := by
  have hperm := generate_inputs_perm t
  have hnd : (generate t).inputs.Nodup := generate_inputs_nodup t
  have hmemv : ∀ v, v ∈ (generate t).inputs ↔ v ∈ astVars t := by
    intro v
    rw [hperm.mem_iff, generate_mem_vars]
  refine ⟨generate_inputVars t, ?_, ?_, ?_, ?_⟩
  · have hr : (generate t).gates.map Gate.gateId = List.range (generate t).gates.length := by
      simpa [generate] using bc_idsRange t ⟨[], [], 0⟩ rfl rfl
    rw [hr]
    exact List.nodup_range _
  · have hsle : (generate t).inputs.Sorted (· ≤ ·) := by
      simpa [generate] using List.sorted_insertionSort (α := String) (· ≤ ·)
        (buildCircuit t ⟨[], [], 0⟩).2.input_variables
    exact hsle.lt_of_le hnd
  · intro v
    rw [generate_inputVars t]
    exact hmemv v
  · have h1 : (generate t).inputs.toFinset = (astVars t).dedup.toFinset := by
      ext v
      simp only [List.mem_toFinset, List.mem_dedup]
      exact hmemv v
    have h2 := List.toFinset_card_of_nodup hnd
    have h3 := List.toFinset_card_of_nodup (List.nodup_dedup (astVars t))
    rw [← h2, ← h3, h1]

/-- C10: whenever parse succeeds, the resulting AST contains at least one
identifier occurrence, so the generated circuit has a non-empty gates list
and a non-empty (k ≥ 1) inputs list, and the generated truth table has at
least 2 rows; the degenerate zero-variable table never arises from a
parsed expression. -/
theorem c10_no_degenerate_table (s : String) (t : Ast) (h : parse s = Except.ok t) :
    astVars t ≠ [] ∧ (generate t).gates ≠ [] ∧ (generate t).inputs ≠ [] ∧
    2 ≤ (generateTruthTable (generate t)).length := by
  clear h
  have hinputs : (generate t).inputs ≠ [] := by
    obtain ⟨v, hv⟩ := List.exists_mem_of_ne_nil _ (astVars_ne_nil t)
    have : v ∈ (generate t).inputs := by
      rw [(generate_inputs_perm t).mem_iff, generate_mem_vars]
      exact hv
    exact List.ne_nil_of_mem this
  refine ⟨astVars_ne_nil t, ?_, hinputs, ?_⟩
  · have hsh := bc_gates_shape t ⟨[], [], 0⟩
    obtain ⟨d, hd⟩ := hsh
    simp only [generate]
    rw [hd]
    simp
  · have hk : 1 ≤ (generate t).inputs.length := List.length_pos.mpr hinputs
    have hlen : (generateTruthTable (generate t)).length =
        2 ^ (generate t).inputs.length := by
      simp [generateTruthTable]
    rw [hlen]
    calc 2 = 2 ^ 1 := by norm_num
      _ ≤ 2 ^ (generate t).inputs.length := Nat.pow_le_pow_right (by norm_num) hk

theorem c10_witness :
    astVars (Ast.ident "A") ≠ [] ∧
    (generate (Ast.ident "A")).gates ≠ [] ∧
    (generate (Ast.ident "A")).inputs ≠ [] ∧
    2 ≤ (generateTruthTable (generate (Ast.ident "A"))).length :=
  c10_no_degenerate_table "A" (Ast.ident "A") rfl

theorem lookup_append_single_ne (d : List (String × Bool)) (k : String) (v : Bool)
    (q : String) (hq : q ≠ k) : (d ++ [(k, v)]).lookup q = d.lookup q := by
  induction d with
  | nil =>
    simp only [List.nil_append, List.lookup_cons, List.lookup_nil]
    rw [beq_eq_false_iff_ne.mpr hq]
  | cons a d ih =>
    rcases a with ⟨a1, a2⟩
    simp only [List.cons_append, List.lookup_cons]
    cases hqa : q == a1
    · simpa using ih
    · rfl

theorem lookup_append_single_self (d : List (String × Bool)) (k : String) (v : Bool)
    (h : d.lookup k = none) : (d ++ [(k, v)]).lookup k = some v := by
  induction d with
  | nil => simp
  | cons a d ih =>
    rcases a with ⟨a1, a2⟩
    rw [List.lookup_cons] at h
    simp only [List.cons_append, List.lookup_cons]
    cases hqa : k == a1
    · rw [hqa] at h
      simp only at h
      simpa using ih h
    · rw [hqa] at h
      simp at h

theorem lookup_mapUpdate_ne (d : List (String × Bool)) (k : String) (v : Bool)
    (q : String) (hq : q ≠ k) :
    (d.map fun p => if p.1 = k then (k, v) else p).lookup q = d.lookup q := by
  induction d with
  | nil => rfl
  | cons a d ih =>
    rcases a with ⟨a1, a2⟩
    simp only [List.map_cons]
    by_cases hk : a1 = k
    · subst hk
      have hqa : (q == a1) = false := beq_eq_false_iff_ne.mpr hq
      rw [if_pos (show (a1, a2).1 = a1 from rfl)]
      simp only [List.lookup_cons, hqa]
      exact ih
    · rw [if_neg (show ¬ (a1, a2).1 = k from hk)]
      simp only [List.lookup_cons]
      cases hqa : q == a1 <;> simp [hqa, ih]

theorem lookup_mapUpdate_self (d : List (String × Bool)) (k : String) (v : Bool)
    (h : (d.lookup k).isSome) :
    (d.map fun p => if p.1 = k then (k, v) else p).lookup k = some v := by
  induction d with
  | nil => simp at h
  | cons a d ih =>
    rcases a with ⟨a1, a2⟩
    rw [List.lookup_cons] at h
    simp only [List.map_cons]
    by_cases hk : a1 = k
    · subst hk
      rw [if_pos (show (a1, a2).1 = a1 from rfl)]
      simp [List.lookup_cons]
    · rw [if_neg (show ¬ (a1, a2).1 = k from hk)]
      simp only [List.lookup_cons]
      cases hqa : k == a1
      · rw [hqa] at h
        simp only at h
        simpa [hqa] using ih h
      · exact absurd (beq_iff_eq.mp hqa).symm hk

theorem lookup_dictSet_ne (d : List (String × Bool)) (k : String) (v : Bool)
    (q : String) (hq : q ≠ k) : (dictSet d k v).lookup q = d.lookup q := by
  unfold dictSet
  by_cases h : (d.lookup k).isSome
  · rw [if_pos h]
    exact lookup_mapUpdate_ne d k v q hq
  · rw [if_neg h]
    exact lookup_append_single_ne d k v q hq

theorem lookup_dictSet_self (d : List (String × Bool)) (k : String) (v : Bool) :
    (dictSet d k v).lookup k = some v := by
  unfold dictSet
  by_cases h : (d.lookup k).isSome
  · rw [if_pos h]
    exact lookup_mapUpdate_self d k v h
  · rw [if_neg h]
    exact lookup_append_single_self d k v (Option.not_isSome_iff_eq_none.mp h)

/-- C3 (amended): for every circuit whose (sorted, duplicate-free) inputs
list has length k, the generated truth table has exactly 2^k rows, for i
in 0 .. 2^k - 1 ascending; the evaluation assignment of row i maps
inputs[j] to bit j (0-indexed from the most significant) of the k-bit
zero-padded binary representation of i, and the row dictionary records
that bit for every input variable not literally named "Output", while its
"Output" entry holds the evaluation of the output gate under that
assignment — overwriting the recorded bit of a variable that is itself
named "Output". -/
theorem c3_truth_table_amended (c : Circuit) (hnd : c.inputs.Nodup) :
    (generateTruthTable c).length = 2 ^ c.inputs.length ∧
    ∀ (i : Nat) (r : List (String × Bool)), (generateTruthTable c)[i]? = some r →
      (∀ j, (hj : j < c.inputs.length) → c.inputs[j] ≠ "Output" →
        r.lookup c.inputs[j] = some (i.testBit (c.inputs.length - 1 - j))) ∧
      r.lookup "Output" =
        some (c.output_gate.evaluate (c.inputs.zip (padBits c.inputs.length i))) := by
  constructor
  · simp [generateTruthTable]
  · intro i r hr
    simp only [generateTruthTable, List.getElem?_map] at hr
    by_cases hi : i < 2 ^ c.inputs.length
    · rw [List.getElem?_range hi] at hr
      simp only [Option.map_some'] at hr
      obtain rfl := (Option.some.injEq _ _).mp hr
      have hblen : (padBits c.inputs.length i).length = c.inputs.length :=
        padBits_length _ _ hi
      have hvals : (c.inputs.map fun v =>
          (v, ((c.inputs.zip (padBits c.inputs.length i)).lookup v).getD false)) =
          c.inputs.zip (padBits c.inputs.length i) :=
        map_lookup_zip c.inputs (padBits c.inputs.length i) false hnd (by rw [hblen])
      constructor
      · intro j hj hout
        rw [lookup_dictSet_ne _ _ _ _ hout, hvals]
        have hlk := lookup_zip c.inputs (padBits c.inputs.length i) hnd j hj
          (by rw [hblen]; exact hj)
        rw [hlk]
        have hbit := padBits_getElem? c.inputs.length i hi j hj
        rw [List.getElem?_eq_getElem (by rw [hblen]; exact hj)] at hbit
        obtain hbit := (Option.some.injEq _ _).mp hbit
        rw [hbit]
      · exact lookup_dictSet_self _ _ _
    · exfalso
      have : (List.range (2 ^ c.inputs.length))[i]? = none := by
        rw [List.getElem?_eq_none]
        simpa using Nat.le_of_not_lt hi
      rw [this] at hr
      simp at hr

theorem c3_truth_table_amended_witness :
    (generateTruthTable (generate (Ast.not (Ast.ident "Output")))).length =
      2 ^ (generate (Ast.not (Ast.ident "Output"))).inputs.length :=
  (c3_truth_table_amended (generate (Ast.not (Ast.ident "Output")))
    (generate_inputs_nodup (Ast.not (Ast.ident "Output")))).1

/-- C3 counterexample: the expression NOT Output yields a circuit whose
single input variable is literally named "Output"; in row 0 the binary
assignment gives that variable the bit false, yet the produced row records
it as true, because storing the Output column overwrote the variable's
dictionary entry — so the original claim (every row's recorded assignment
is the binary representation of i) fails on this concrete circuit. -/
theorem c3_output_overwrite_refuted :
    (generate (Ast.not (Ast.ident "Output"))).inputs = ["Output"] ∧
    generateTruthTable (generate (Ast.not (Ast.ident "Output"))) =
      [[("Output", true)], [("Output", false)]] ∧
    ((generateTruthTable (generate (Ast.not (Ast.ident "Output")))).getD 0 []).lookup
        "Output" ≠ some ((0 : Nat).testBit 0) := by
  refine ⟨rfl, rfl, ?_⟩
  decide

/-- C1 (amended): the tokenizer recognizes AND, OR, NOT case-sensitively
as literal prefixes of the remaining input, before the identifier rule, so
an identifier-shaped word beginning with a keyword is split: the keyword is
emitted first and scanning resumes right after it; in particular ANDY is
tokenized as AND followed by Identifier Y, not as one Identifier. -/
theorem c1_keywords_matched_as_prefixes :
    (∀ (rest : List Char) (pos : Nat),
      nextTokenAux ('A' :: 'N' :: 'D' :: rest) pos =
        Except.ok (some Token.AND, rest, pos + 3)) ∧
    (∀ (rest : List Char) (pos : Nat),
      nextTokenAux ('O' :: 'R' :: rest) pos =
        Except.ok (some Token.OR, rest, pos + 2)) ∧
    (∀ (rest : List Char) (pos : Nat),
      nextTokenAux ('N' :: 'O' :: 'T' :: rest) pos =
        Except.ok (some Token.NOT, rest, pos + 3)) ∧
    tokenize "ANDY" = Except.ok [Token.AND, Token.IDENTIFIER "Y"] :=
  ⟨fun _ _ => rfl, fun _ _ => rfl, fun _ _ => rfl, rfl⟩

/-- C1 counterexample: the word ANDY is not tokenized as the single
Identifier ANDY; it is split into the keyword AND and the Identifier Y. -/
theorem c1_single_identifier_refuted :
    tokenize "ANDY" ≠ Except.ok [Token.IDENTIFIER "ANDY"] ∧
    tokenize "ANDY" = Except.ok [Token.AND, Token.IDENTIFIER "Y"] := by
  refine ⟨?_, rfl⟩
  intro h
  rw [show tokenize "ANDY" = Except.ok [Token.AND, Token.IDENTIFIER "Y"] from rfl] at h
  simp at h

/-- C2 (the code at the failing input): parse accepts "A XOR B", returning
the node for the lone identifier A while the lookahead still holds the
unconsumed token XOR, and likewise accepts "A )" with a stray closing
parenthesis, instead of failing on trailing unconsumed tokens. -/
theorem c2_trailing_tokens_accepted :
    parse "A XOR B" = Except.ok (Ast.ident "A") ∧
    (parseRun "A XOR B").map (fun p => p.2.current) =
      Except.ok (some (Token.IDENTIFIER "XOR")) ∧
    parse "A )" = Except.ok (Ast.ident "A") :=
  ⟨rfl, rfl, rfl⟩

/-- C4: operator precedence is OR lowest, AND middle: "A AND B OR C"
parses as (A AND B) OR C, evaluates identically to "(A AND B) OR C" under
every assignment of A, B, C, and differs from "A AND (B OR C)" at the
assignment A=false, B=false, C=true. -/
theorem c4_precedence :
    parse "A AND B OR C" =
      Except.ok (Ast.or (Ast.and (Ast.ident "A") (Ast.ident "B")) (Ast.ident "C")) ∧
    (∀ a b c : Bool, evalStr "A AND B OR C" a b c = evalStr "(A AND B) OR C" a b c) ∧
    evalStr "A AND B OR C" false false true = some true ∧
    evalStr "A AND (B OR C)" false false true = some false := by
  refine ⟨rfl, ?_, rfl, rfl⟩
  intro a b c
  cases a <;> cases b <;> cases c <;> decide

/-- C5: parsing the empty string raises "Invalid factor" (the factor
position is reached at end of input), rather than returning a default
node, so no circuit is ever produced from it. -/
theorem c5_empty_input_fails : parse "" = Except.error Err.invalidFactor := rfl

/-- C6: Gate.evaluate reads an INPUT gate's variable from the assignment,
defaulting to false when the variable is absent; NOT negates its operand's
value and AND and OR combine the values of both operands. -/
theorem c6_evaluate_semantics :
    (∀ (i : Nat) (v : String) (a : List (String × Bool)) (b : Bool),
      a.lookup v = some b → (Gate.input i v).evaluate a = b) ∧
    (∀ (i : Nat) (v : String) (a : List (String × Bool)),
      a.lookup v = none → (Gate.input i v).evaluate a = false) ∧
    (∀ (i : Nat) (g : Gate) (a : List (String × Bool)),
      (Gate.not i g).evaluate a = !(g.evaluate a)) ∧
    (∀ (i : Nat) (l r : Gate) (a : List (String × Bool)),
      (Gate.and i l r).evaluate a = (l.evaluate a && r.evaluate a)) ∧
    (∀ (i : Nat) (l r : Gate) (a : List (String × Bool)),
      (Gate.or i l r).evaluate a = (l.evaluate a || r.evaluate a)) := by
  refine ⟨?_, ?_, fun i g a => rfl, fun i l r a => rfl, fun i l r a => rfl⟩
  · intro i v a b h
    simp [Gate.evaluate, h]
  · intro i v a h
    simp [Gate.evaluate, h]

theorem c6_evaluate_semantics_witness :
    (Gate.input 0 "A").evaluate [("A", true)] = true ∧
    (Gate.input 1 "B").evaluate [("A", true)] = false :=
  ⟨c6_evaluate_semantics.1 0 "A" [("A", true)] true rfl,
   c6_evaluate_semantics.2.1 1 "B" [("A", true)] rfl⟩

/-- C9: when the character at the scan position is matched by no rule (not
a space, parenthesis, keyword prefix or identifier start), next_token
fails with the lexical error carrying that position; in particular the
input "A & B" fails at position 2, where the character is the ampersand,
and parse surfaces the same failure. -/
theorem c9_lex_error_position (c : Char) (cs : List Char) (pos : Nat)
    (h1 : c ≠ ' ') (h2 : c ≠ '(') (h3 : c ≠ ')')
    (h4 : matchKeyword (c :: cs) = none) (h5 : isIdentStart c = false) :
    nextTokenAux (c :: cs) pos = Except.error (Err.invalidChar pos) ∧
    tokenize "A & B" = Except.error (Err.invalidChar 2) ∧
    "A & B".data[2]? = some '&' ∧
    parse "A & B" = Except.error (Err.invalidChar 2) := by
  refine ⟨?_, rfl, rfl, rfl⟩
  simp only [nextTokenAux, h4]
  rw [if_neg h1, if_neg h2, if_neg h3]
  simp [h5]

theorem c9_lex_error_position_witness :
    nextTokenAux ['&'] 2 = Except.error (Err.invalidChar 2) ∧
    tokenize "A & B" = Except.error (Err.invalidChar 2) ∧
    "A & B".data[2]? = some '&' ∧
    parse "A & B" = Except.error (Err.invalidChar 2) :=
  c9_lex_error_position '&' [] 2 (by decide) (by decide) (by decide) rfl rfl
